import Mathlib

/-!
# Verification of the sync-music-db reconciliation engine

Shallow embedding of the filesystem-to-database reconciliation engine of
`sync-music-db` (the `SyncMusicDb` class of `index.js`, together with the
older bundled revision of the same file and the `tracks.sql` schema).

Conventions of the embedding:
* the sqlite `tracks` table is a list of `Row`s (the schema of `tracks.sql`:
  auto-assigned `id`, `disk` with default 1, unique `path`, `mtime`, and the
  descriptive metadata columns);
* the `music-metadata` collaborator (`mm.parseFile`) is a parameter
  `mm : String → Option (MMCommon × MMFormat)`, `none` standing for a thrown
  parse error;
* filesystem mtimes (`fs.Stats.mtimeMs`) are rationals, floored to integers
  by the engine exactly where the source applies `Math.floor`;
* `path.sep` is the POSIX separator `/`;
* emitted `EventEmitter` notifications are collected in a `List Event`;
* sqlite `LIKE` is modelled by `likeMatch` (ASCII-case-insensitive, with `%`
  and `_` wildcards), following the documented default sqlite semantics.
-/

namespace SyncMusicDb

/-- POSIX path separator (`path.sep`). -/
def sepChar : Char := '/'

/-- The characters of the last path component (everything after the last
separator), used by `path.extname`. -/
def afterLastSep (l : List Char) : List Char :=
  (l.reverse.takeWhile (fun c => c ≠ sepChar)).reverse

/-- JS `path.extname`: the extension of the last path component including the
leading dot; empty when the component has no dot or only a leading dot. -/
def extname (p : String) : String :=
  let base := afterLastSep p.data
  let revExt := base.reverse.takeWhile (fun c => c ≠ '.')
  if revExt.length + 1 < base.length then String.mk ('.' :: revExt.reverse)
  else ""

/-- The classifier `isAudioFile`: the extension (without the dot) occurs in the
`audio-extensions` allow-list (`audioExtensions.indexOf(ext) !== -1`).
The allow-list itself is external data, passed as `exts`. -/
def isAudioFile (exts : List String) (file : String) : Bool :=
  let ext := (extname file).drop 1
  exts.contains ext

/-! ## Metadata records -/

/-- The descriptive (nullable) columns of a track record, i.e. every
`TRACK_ATTRS` column except `path` and `mtime`. -/
structure Meta where
  title : Option String
  artist : Option String
  album : Option String
  year : Option Int
  duration : Option Int
  track_no : Option Int
  tags : Option String
  is_vbr : Option Bool
  bitrate : Option Int
  codec : Option String
  container : Option String
deriving DecidableEq, Repr

/-- The record `getMetaData` returns when `mm.parseFile` throws: `{}`, i.e.
every descriptive field absent. -/
def emptyMeta : Meta :=
  { title := none, artist := none, album := none, year := none,
    duration := none, track_no := none, tags := none, is_vbr := none,
    bitrate := none, codec := none, container := none }

/-- The `common` part of a successful `mm.parseFile` result. The `track`
field is an optional object whose `no` field is itself nullable. -/
structure MMCommon where
  title : Option String
  artist : Option String
  album : Option String
  year : Option Int
  track : Option (Option Int)
  genre : Option (List String)
deriving DecidableEq, Repr

/-- The `format` part of a successful `mm.parseFile` result. -/
structure MMFormat where
  codec : Option String
  codecProfile : Option String
  duration : Option ℚ
  bitrate : Option ℚ
  container : Option String
deriving DecidableEq, Repr

/-- Minimal JSON string escaping (backslash and double quote), enough for
`JSON.stringify` of a genre list. -/
def jsonEscape (s : String) : String :=
  String.mk (s.data.foldr
    (fun c acc =>
      if c = '\\' then '\\' :: '\\' :: acc
      else if c = '"' then '\\' :: '"' :: acc
      else c :: acc) [])

/-- JS `JSON.stringify` of a list of strings. -/
def jsonStringifyList (l : List String) : String :=
  "[" ++ String.intercalate "," (l.map (fun s => "\"" ++ jsonEscape s ++ "\"")) ++ "]"

/-- The regex test `/^v/i.test(format.codecProfile)`: does the codec profile start with a
`v` or `V`? (`undefined` is coerced to the string "undefined" by the regex
test, which does not start with a v.) -/
def startsWithVbrProfile (o : Option String) : Bool :=
  match o with
  | some s => s.startsWith "v" || s.startsWith "V"
  | none => false

/-- Static method `SyncMusicDb.getMetaData`: project the parser result onto the
descriptive columns; on a thrown parse error return the empty record. -/
def getMetaData (mm : String → Option (MMCommon × MMFormat)) (p : String) : Meta :=
  match mm p with
  | none => emptyMeta
  | some (common, format) =>
    { title := common.title
      artist := common.artist
      album := common.album
      year := common.year
      duration := format.duration.map (fun q => Rat.floor q)
      track_no := match common.track with
        | some n => n
        | none => none
      tags := common.genre.map jsonStringifyList
      is_vbr := some (format.codec == some "MP3" && startsWithVbrProfile format.codecProfile)
      bitrate := format.bitrate.map (fun q => Rat.floor (q / 1000))
      codec := format.codec
      container := format.container }

/-! ## The tracks table -/

/-- The track object handed to the upsert statement and to `add` listeners:
`Object.assign({ path, mtime }, meta)`. -/
structure Track where
  path : String
  mtime : Int
  meta : Meta
deriving DecidableEq, Repr

/-- One row of the `tracks` table of `tracks.sql`: auto primary key `id`,
`disk` (default 1), unique `path`, `mtime`, and the descriptive columns. -/
structure Row where
  id : Nat
  disk : Int
  path : String
  mtime : Int
  meta : Meta
deriving DecidableEq, Repr

/-- The `tracks` table: its rows. The `id` column of `tracks.sql` is an
INTEGER PRIMARY KEY — a rowid alias without AUTOINCREMENT — so the id of a
fresh insert is determined by the rows currently in the table. -/
structure Store where
  rows : List Row
deriving DecidableEq, Repr

/-! ## sqlite LIKE -/

/-- Default sqlite `LIKE` folds ASCII upper-case letters to lower case. -/
def likeFold (c : Char) : Char :=
  if 'A' ≤ c ∧ c ≤ 'Z' then Char.ofNat (c.toNat + 32) else c

/-- sqlite `LIKE` matching on character lists: `%` matches any sequence,
`_` any single character, other characters match ASCII-case-insensitively. -/
def likeMatchL (p : List Char) : List Char → Bool :=
  match p with
  | [] => fun s => s.isEmpty
  | c :: ps =>
    let rest := likeMatchL ps
    if c = '%' then fun s => s.tails.any rest
    else fun s =>
      match s with
      | [] => false
      | d :: s2 => (c == '_' || likeFold c == likeFold d) && rest s2

/-- sqlite `LIKE` on strings. -/
def likeMatch (pat s : String) : Bool := likeMatchL pat.data s.data

/-! ## Store primitives -/

/-- Statement `delete from tracks where path = ?`. -/
def Store.deletePath (s : Store) (p : String) : Store :=
  { s with rows := s.rows.filter (fun r => r.path != p) }

/-- Statement `delete from tracks where path like ?`. -/
def Store.deleteLike (s : Store) (pat : String) : Store :=
  { s with rows := s.rows.filter (fun r => !likeMatch pat r.path) }

/-- The `on conflict(path) do update set` clause of `UPSERT_TRACK`: every
`TRACK_ATTRS` column except `path` is replaced by the excluded row's value;
the table's `id` and `disk` columns are not in the clause and keep their
stored values. -/
def overwriteRow (r : Row) (t : Track) : Row :=
  { r with mtime := t.mtime, meta := t.meta }

/-- The rowid sqlite assigns to a fresh insert into this table: `id` is an
INTEGER PRIMARY KEY without AUTOINCREMENT, so the new rowid is one more
than the largest rowid currently in use (1 on an empty table); after
deletes, rowids can be reused. -/
def Store.freshId (s : Store) : Nat :=
  (s.rows.map Row.id).foldr max 0 + 1

/-- Statement `UPSERT_TRACK`: insert the `TRACK_ATTRS` columns (the rowid
`id` is assigned as in `Store.freshId` and `disk` takes its schema default
1); on a unique-constraint conflict on `path`, update as in
`overwriteRow`. -/
def Store.upsert (s : Store) (t : Track) : Store :=
  if s.rows.any (fun r => r.path == t.path) then
    { s with rows := s.rows.map (fun r => if r.path == t.path then overwriteRow r t else r) }
  else
    { rows := s.rows ++ [{ id := s.freshId, disk := 1, path := t.path,
                           mtime := t.mtime, meta := t.meta }] }

/-! ## The engine state and events -/

/-- Notifications emitted on the `EventEmitter`. -/
inductive Event where
  | add (t : Track)
  | remove (p : String)
  | synced (b : Bool)
  | ready
  | error (code : String)
deriving DecidableEq, Repr

/-- Is this an `add` or `remove` notification? -/
def Event.isAddOrRemove : Event → Bool
  | .add _ => true
  | .remove _ => true
  | _ => false

/-- Is this a `remove` notification? -/
def Event.isRemove : Event → Bool
  | .remove _ => true
  | _ => false

/-- Is this an `error` notification? -/
def Event.isError : Event → Bool
  | .error _ => true
  | _ => false

/-- The mutable state of a `SyncMusicDb` instance: the database, the
`localMtimes` map (insertion-ordered, as a JS `Map`), whether a watcher is
attached, and the `isReady` / `isSynced` flags. -/
structure Engine where
  store : Store
  localMtimes : List (String × Int)
  watcher : Bool
  isReady : Bool
  isSynced : Bool
deriving DecidableEq, Repr

/-! ## JS `Map` operations on `localMtimes` -/

/-- JS `Map.prototype.set`: replace in place if the key is present, otherwise
append. -/
def mapSet (m : List (String × Int)) (k : String) (v : Int) : List (String × Int) :=
  if m.any (fun kv => kv.1 == k) then
    m.map (fun kv => if kv.1 == k then (k, v) else kv)
  else m ++ [(k, v)]

/-- JS `Map.prototype.get` (`none` = `undefined`). -/
def mapGet (m : List (String × Int)) (k : String) : Option Int :=
  (m.find? (fun kv => kv.1 == k)).map Prod.snd

/-- JS `Map.prototype.delete`. -/
def mapDelete (m : List (String × Int)) (k : String) : List (String × Int) :=
  m.filter (fun kv => kv.1 != k)

/-! ## Engine operations (current revision of index.js) -/

/-- Method `removeDbTrack`: delete the row for one path and emit `remove`. -/
def removeDbTrack (p : String) (e : Engine) : Engine × List Event :=
  ({ e with store := e.store.deletePath p }, [Event.remove p])

/-- Method `removeDbDir`: run `delete from tracks where path like ?` with the
pattern `` `${dir}${path.sep}%` `` and emit a single `remove` carrying the
directory path. -/
def removeDbDir (dir : String) (e : Engine) : Engine × List Event :=
  ({ e with store := e.store.deleteLike (dir ++ "/%") }, [Event.remove dir])

/-- Method `upsertDbTrack`: run the upsert statement for one track and emit `add`
with the track object. -/
def upsertDbTrack (t : Track) (e : Engine) : Engine × List Event :=
  ({ e with store := e.store.upsert t }, [Event.add t])

/-- A file reported by the recursive directory walk, with its raw
`mtimeMs`. -/
structure FileStat where
  path : String
  mtimeMs : ℚ
deriving DecidableEq, Repr

/-- Method `refreshLocalMtimes`: clear `localMtimes`, then record
`Math.floor(stats.mtimeMs)` for every walked file that passes the relevance
filter (`if (this.ignoreExt && !isAudioFile(stats.path)) return`). -/
def refreshLocalMtimes (exts : List String) (ignoreExt : Bool)
    (files : List FileStat) (e : Engine) : Engine :=
  { e with localMtimes :=
      files.foldl (fun m f =>
        if ignoreExt && !isAudioFile exts f.path then m
        else mapSet m f.path (Rat.floor f.mtimeMs)) [] }

/-- The loop body of `removeDeadTracks` over the selected
`(path, mtime)` rows: a JS-falsy `localMtimes` entry (absent or 0) deletes
the row; an entry strictly equal to the stored mtime deletes the map entry;
anything else is left for `addUpdatedTracks`. -/
def removeDeadTracksGo : List (String × Int) → Engine → List Event → Engine × List Event
  | [], e, ev => (e, ev)
  | (p, mt) :: rest, e, ev =>
    match mapGet e.localMtimes p with
    | none =>
      removeDeadTracksGo rest (removeDbTrack p e).1 (ev ++ (removeDbTrack p e).2)
    | some lm =>
      if lm == 0 then
        removeDeadTracksGo rest (removeDbTrack p e).1 (ev ++ (removeDbTrack p e).2)
      else if lm == mt then
        removeDeadTracksGo rest { e with localMtimes := mapDelete e.localMtimes p } ev
      else
        removeDeadTracksGo rest e ev

/-- Method `removeDeadTracks`: iterate `select path as p, mtime from tracks`. -/
def removeDeadTracks (e : Engine) : Engine × List Event :=
  removeDeadTracksGo (e.store.rows.map (fun r => (r.path, r.mtime))) e []

/-- The loop body of `addUpdatedTracks`: for every remaining
`localMtimes` entry, extract metadata, assign `path`/`mtime` over it, and
upsert. -/
def addUpdatedTracksGo (mm : String → Option (MMCommon × MMFormat)) :
    List (String × Int) → Engine → List Event → Engine × List Event
  | [], e, ev => (e, ev)
  | (p, mt) :: rest, e, ev =>
    let t : Track := { path := p, mtime := mt, meta := getMetaData mm p }
    addUpdatedTracksGo mm rest (upsertDbTrack t e).1 (ev ++ (upsertDbTrack t e).2)

/-- Method `addUpdatedTracks`: upsert every entry left in `localMtimes`, then
clear the map. -/
def addUpdatedTracks (mm : String → Option (MMCommon × MMFormat))
    (e : Engine) : Engine × List Event :=
  ({ (addUpdatedTracksGo mm e.localMtimes e []).1 with localMtimes := [] },
   (addUpdatedTracksGo mm e.localMtimes e []).2)

/-- Method `refresh`: close (detaching any watcher and resetting both flags,
emitting `synced false`), rebuild `localMtimes` from the walk, reconcile,
then attach the watcher; on the watcher's ready signal set `isReady` and
`isSynced` and emit `synced true` and `ready`. A failing walk aborts the
pass with a single `error` notification. -/
def refresh (exts : List String) (ignoreExt : Bool)
    (mm : String → Option (MMCommon × MMFormat))
    (walk : Except String (List FileStat)) (e : Engine) : Engine × List Event :=
  let e0 : Engine := { e with watcher := false, isReady := false, isSynced := false }
  let ev0 : List Event := [Event.synced false]
  match walk with
  | .error c => (e0, ev0 ++ [Event.error c])
  | .ok files =>
    let e1 := refreshLocalMtimes exts ignoreExt files e0
    ({ (addUpdatedTracks mm (removeDeadTracks e1).1).1 with
         watcher := true, isReady := true, isSynced := true },
     ev0 ++ (removeDeadTracks e1).2 ++
       (addUpdatedTracks mm (removeDeadTracks e1).1).2 ++
       [Event.synced true, Event.ready])

/-! ## The live watcher callback -/

/-- Result of `fs.promises.stat` on the notified path. -/
structure Stats where
  isDir : Bool
  mtimeMs : ℚ
deriving DecidableEq, Repr

/-- An entry of the recursive `readdir` over a notified directory. -/
structure DirEntry where
  path : String
  isDir : Bool
  mtimeMs : ℚ
deriving DecidableEq, Repr

/-- The filesystem as seen by the watcher callback; `Except.error c` models
a thrown error whose `code` property is `c` (e.g. `"ENOENT"`). -/
structure FsView where
  stat : String → Except String Stats
  readdirRec : String → Except String (List DirEntry)

/-- A coalesced `node-watch` notification kind. -/
inductive WatchEvt where
  | update
  | remove
deriving DecidableEq, Repr

/-- The tail of the watcher callback: set `isSynced` back to true and emit
`synced true`. -/
def finishEvent (e : Engine) (ev : List Event) : Engine × List Event :=
  ({ e with isSynced := true }, ev ++ [Event.synced true])

/-- The `catch` clause of the watcher callback: swallow errors whose code
is `ENOENT`, surface every other error, then fall through to the tail. -/
def catchEvent (c : String) (e : Engine) (ev : List Event) : Engine × List Event :=
  finishEvent e (ev ++ (if c == "ENOENT" then [] else [Event.error c]))

/-- The per-entry upsert loop run for a directory `update` notification:
skip directories and (when `ignoreExt`) non-audio files, upsert the rest. -/
def upsertDirEntries (exts : List String) (ignoreExt : Bool)
    (mm : String → Option (MMCommon × MMFormat)) :
    List DirEntry → Engine → List Event → Engine × List Event
  | [], e, ev => (e, ev)
  | f :: rest, e, ev =>
    if f.isDir then upsertDirEntries exts ignoreExt mm rest e ev
    else if ignoreExt && !isAudioFile exts f.path then
      upsertDirEntries exts ignoreExt mm rest e ev
    else
      let t : Track := { path := f.path, mtime := Rat.floor f.mtimeMs,
                         meta := getMetaData mm f.path }
      upsertDirEntries exts ignoreExt mm rest (upsertDbTrack t e).1
        (ev ++ (upsertDbTrack t e).2)

/-- The `node-watch` callback: set `isSynced` false and emit `synced false`;
on `update`, stat the path and upsert the file or the files of the
directory; on `remove`, run both the single-row delete and the directory
delete. Errors go through `catchEvent`. The non-audio single-file branch
returns early from the callback, skipping `finishEvent` (as the source's
`return` skips the trailing `this.isSynced = true`). -/
def watchCallback (exts : List String) (ignoreExt : Bool)
    (mm : String → Option (MMCommon × MMFormat)) (fsv : FsView)
    (evt : WatchEvt) (name : String) (e : Engine) : Engine × List Event :=
  let e0 : Engine := { e with isSynced := false }
  let ev0 : List Event := [Event.synced false]
  match evt with
  | .update =>
    match fsv.stat name with
    | .error c => catchEvent c e0 ev0
    | .ok st =>
      if st.isDir then
        match fsv.readdirRec name with
        | .error c => catchEvent c e0 ev0
        | .ok files =>
          finishEvent (upsertDirEntries exts ignoreExt mm files e0 ev0).1
            (upsertDirEntries exts ignoreExt mm files e0 ev0).2
      else if ignoreExt && !isAudioFile exts name then
        (e0, ev0)
      else
        let t : Track := { path := name, mtime := Rat.floor st.mtimeMs,
                           meta := getMetaData mm name }
        finishEvent (upsertDbTrack t e0).1 (ev0 ++ (upsertDbTrack t e0).2)
  | .remove =>
    finishEvent (removeDbDir name (removeDbTrack name e0).1).1
      (ev0 ++ (removeDbTrack name e0).2 ++
       (removeDbDir name (removeDbTrack name e0).1).2)

/-! ## Batch operations of the older bundled revision -/

/-- A database statement execution, recorded so that "executes no database
statement" is observable in the model. -/
inductive DbStmt where
  | deleteWhereIn (paths : List String)
  | upsertMany (count : Nat)
deriving DecidableEq, Repr

/-- The older revision's `removeDbTracks(paths)`: return immediately on an
empty list; otherwise run one `delete ... where path in (...)` statement and
emit one `remove` per path. -/
def removeDbTracks (paths : List String) (e : Engine) :
    Engine × List DbStmt × List Event :=
  if paths.isEmpty then (e, [], [])
  else
    ({ e with store := { e.store with
         rows := e.store.rows.filter (fun r => !paths.contains r.path) } },
     [DbStmt.deleteWhereIn paths],
     paths.map Event.remove)

/-- The older revision's `upsertDbTracks(tracks)`: return immediately on an
empty list; otherwise run one multi-row upsert statement (`formatDbUpsert`)
and emit one `add` per track. -/
def upsertDbTracks (tracks : List Track) (e : Engine) :
    Engine × List DbStmt × List Event :=
  if tracks.isEmpty then (e, [], [])
  else
    (tracks.foldl (fun acc t => { acc with store := acc.store.upsert t }) e,
     [DbStmt.upsertMany tracks.length],
     tracks.map Event.add)

/-! ## Derived notions used by the theorems -/

/-- The snapshot `refreshLocalMtimes` builds when the walked file paths are
distinct: one `(path, ⌊mtimeMs⌋)` entry per relevant file. -/
def relevantEntries (exts : List String) (ignoreExt : Bool)
    (files : List FileStat) : List (String × Int) :=
  files.filterMap (fun f =>
    if ignoreExt && !isAudioFile exts f.path then none
    else some (f.path, Rat.floor f.mtimeMs))

/-- The number of rows of a row list holding a given path. -/
def countPath (p : String) (rows : List Row) : Nat :=
  (rows.filter (fun r => r.path == p)).length

/-- JS truthiness of `localMtimes.get(p)` as tested by `!localMtime`:
true when the entry is absent or 0. -/
def falsyGet (m : List (String × Int)) (p : String) : Bool :=
  match mapGet m p with
  | none => true
  | some v => v == 0

/-! ## Concrete fixtures used by witnesses and counterexamples -/

/-- A metadata extractor whose parser throws on every file. -/
def mmNone : String → Option (MMCommon × MMFormat) := fun _ => none

/-- A freshly constructed engine over an empty table. -/
def engine0 : Engine :=
  { store := { rows := [] }, localMtimes := [],
    watcher := false, isReady := false, isSynced := false }

/-- An engine in the watching state over an empty table. -/
def watchingEngine : Engine :=
  { store := { rows := [] }, localMtimes := [],
    watcher := true, isReady := true, isSynced := true }

/-- A filesystem view on which every path stats as a plain file. -/
def plainFileFs : FsView :=
  { stat := fun _ => .ok { isDir := false, mtimeMs := 5 },
    readdirRec := fun _ => .ok [] }

/-- A filesystem view on which every path has already vanished. -/
def deadFs : FsView :=
  { stat := fun _ => .error "ENOENT", readdirRec := fun _ => .error "ENOENT" }

/-- One audio file whose modification time is exactly the epoch
(`mtimeMs = 0`), the JS-falsy corner of `localMtimes.get`. -/
def epochFiles : List FileStat := [{ path := "/music/a.mp3", mtimeMs := 0 }]

/-- First full refresh over `epochFiles`. -/
def c2firstRun : Engine × List Event :=
  refresh ["mp3"] true mmNone (.ok epochFiles) engine0

/-- Second full refresh over the unchanged `epochFiles`. -/
def c2secondRun : Engine × List Event :=
  refresh ["mp3"] true mmNone (.ok epochFiles) c2firstRun.1

/-- A store row whose mtime 0 equals the snapshot's observed mtime 0. -/
def c3engineEq0 : Engine :=
  { store := { rows := [{ id := 1, disk := 1, path := "/music/a.mp3",
                          mtime := 0, meta := emptyMeta }] },
    localMtimes := [("/music/a.mp3", 0)],
    watcher := false, isReady := false, isSynced := false }

/-- A store row whose nonzero mtime 5 equals the snapshot's observed 5. -/
def c3engineEq5 : Engine :=
  { store := { rows := [{ id := 1, disk := 1, path := "/music/a.mp3",
                          mtime := 5, meta := emptyMeta }] },
    localMtimes := [("/music/a.mp3", 5)],
    watcher := false, isReady := false, isSynced := false }

/-- Metadata carrying a fresh title. -/
def c4meta : Meta := { emptyMeta with title := some "New Title" }

/-- An existing row with non-default `id` and `disk` values. -/
def c4oldRow : Row :=
  { id := 7, disk := 2, path := "/music/a.mp3", mtime := 5, meta := emptyMeta }

/-- An engine whose table holds `c4oldRow`. -/
def c4engine : Engine :=
  { store := { rows := [c4oldRow] }, localMtimes := [],
    watcher := false, isReady := false, isSynced := false }

/-- The incoming track record for the same path. -/
def c4track : Track := { path := "/music/a.mp3", mtime := 9, meta := c4meta }

/-- A row whose path does not begin with `AB/`. -/
def c5ceEngine : Engine :=
  { store := { rows := [{ id := 1, disk := 1, path := "ab/x.mp3",
                          mtime := 5, meta := emptyMeta }] },
    localMtimes := [], watcher := true, isReady := true, isSynced := true }

/-- A row under the directory `/music/sub`. -/
def c5wRow : Row :=
  { id := 1, disk := 1, path := "/music/sub/a.mp3", mtime := 5, meta := emptyMeta }

/-- An engine holding one row under `/music/sub` and one outside it. -/
def c5wEngine : Engine :=
  { store := { rows := [c5wRow,
                        { id := 2, disk := 1, path := "/music/other.mp3",
                          mtime := 6, meta := emptyMeta }] },
    localMtimes := [], watcher := true, isReady := true, isSynced := true }

/-- A watched engine holding two rows under the directory `/music/sub`. -/
def c6engine : Engine :=
  { store := { rows := [{ id := 1, disk := 1, path := "/music/sub/a.mp3",
                          mtime := 5, meta := emptyMeta },
                        { id := 2, disk := 1, path := "/music/sub/b.mp3",
                          mtime := 6, meta := emptyMeta }] },
    localMtimes := [], watcher := true, isReady := true, isSynced := true }

/-- A filesystem view that fails with a non-ENOENT code on stat, and with
another non-ENOENT code on the recursive readdir of `/music/dir`. -/
def c8fsv : FsView :=
  { stat := fun p => if p = "/music/dir" then .ok { isDir := true, mtimeMs := 1 }
                     else .error "EACCES",
    readdirRec := fun _ => .error "EPERM" }

/-- Two walked files, one relevant and one not, for the full-refresh
completeness witness. -/
def c1files : List FileStat :=
  [{ path := "/music/a.mp3", mtimeMs := 5 }, { path := "/music/b.txt", mtimeMs := 7 }]

/-- An engine about to upsert a single path whose extraction fails. -/
def c9engine : Engine :=
  { store := { rows := [] },
    localMtimes := [("/music/bad.mp3", 3)],
    watcher := false, isReady := false, isSynced := false }

/-! ## Theorems -/

/-! ### Association-map lemmas for `localMtimes` -/

theorem mapGet_cons (k1 : String) (v : Int) (m : List (String × Int)) (k : String) :
    mapGet ((k1, v) :: m) k = if k1 == k then some v else mapGet m k := by
  by_cases h : (k1 == k) = true <;> simp [mapGet, List.find?_cons, h]

theorem mapGet_eq_none_iff (m : List (String × Int)) (k : String) :
    mapGet m k = none ↔ k ∉ m.map Prod.fst := by
  rw [mapGet, Option.map_eq_none', List.find?_eq_none]
  constructor
  · intro h hk
    obtain ⟨kv, hkv, hfst⟩ := List.mem_map.mp hk
    exact h kv hkv (by simp [hfst])
  · intro h kv hkv hbeq
    exact h (List.mem_map.mpr ⟨kv, hkv, beq_iff_eq.mp hbeq⟩)

theorem mapGet_some_mem (m : List (String × Int)) (k : String) (v : Int)
    (h : mapGet m k = some v) : (k, v) ∈ m := by
  rw [mapGet] at h
  obtain ⟨kv, hfind, hsnd⟩ := Option.map_eq_some'.mp h
  obtain ⟨a, b⟩ := kv
  have hp := List.find?_some hfind
  have ha : a = k := beq_iff_eq.mp hp
  have hb : b = v := hsnd
  rw [← ha, ← hb]
  exact List.mem_of_find?_eq_some hfind

theorem mapGet_key_mem (m : List (String × Int)) (k : String) (v : Int)
    (h : mapGet m k = some v) : k ∈ m.map Prod.fst :=
  List.mem_map.mpr ⟨(k, v), mapGet_some_mem m k v h, rfl⟩

theorem mapGet_eq_some_of_mem (m : List (String × Int))
    (hnd : (m.map Prod.fst).Nodup) (k : String) (v : Int) (h : (k, v) ∈ m) :
    mapGet m k = some v := by
  induction m with
  | nil => cases h
  | cons a rest ih =>
    obtain ⟨a1, a2⟩ := a
    rw [List.map_cons, List.nodup_cons] at hnd
    rcases List.mem_cons.mp h with heq | hm
    · rw [mapGet_cons, if_pos (by simp [(Prod.mk.injEq .. ▸ heq).1])]
      exact congrArg some (Prod.mk.injEq .. ▸ heq).2.symm
    · have hk : a1 ≠ k := by
        intro he
        exact hnd.1 (he ▸ List.mem_map.mpr ⟨(k, v), hm, rfl⟩)
      rw [mapGet_cons, if_neg (by simp [hk])]
      exact ih hnd.2 hm

theorem mapGet_mapDelete_self (m : List (String × Int)) (p : String) :
    mapGet (mapDelete m p) p = none := by
  rw [mapGet_eq_none_iff]
  intro h
  obtain ⟨kv, hkv, hfst⟩ := List.mem_map.mp h
  have h2 := (List.mem_filter.mp hkv).2
  simp [hfst] at h2

theorem mapGet_mapDelete_ne (m : List (String × Int)) (p q : String) (h : q ≠ p) :
    mapGet (mapDelete m p) q = mapGet m q := by
  induction m with
  | nil => rfl
  | cons a rest ih =>
    obtain ⟨a1, a2⟩ := a
    by_cases hap : a1 = p
    · rw [show mapDelete ((a1, a2) :: rest) p = mapDelete rest p by
        simp [mapDelete, hap]]
      rw [ih, mapGet_cons, if_neg]
      simp [hap]
      exact fun he => h he.symm
    · rw [show mapDelete ((a1, a2) :: rest) p = (a1, a2) :: mapDelete rest p by
        simp [mapDelete, hap]]
      rw [mapGet_cons, mapGet_cons, ih]

theorem falsyGet_mapDelete_ne (m : List (String × Int)) (p q : String)
    (h : q ≠ p) : falsyGet (mapDelete m p) q = falsyGet m q := by
  rw [falsyGet, falsyGet, mapGet_mapDelete_ne m p q h]

theorem mapDelete_sublist (m : List (String × Int)) (p : String) :
    List.Sublist (mapDelete m p) m :=
  List.filter_sublist m

theorem mapSet_of_not_mem (m : List (String × Int)) (k : String) (v : Int)
    (h : ∀ kv ∈ m, kv.1 ≠ k) : mapSet m k v = m ++ [(k, v)] := by
  have hany : ¬(m.any (fun kv => kv.1 == k) = true) := by
    rw [List.any_eq_true]
    rintro ⟨kv, hkv, hb⟩
    exact h kv hkv (beq_iff_eq.mp hb)
  rw [mapSet, if_neg hany]

/-! ### The snapshot built by `refreshLocalMtimes` -/

theorem relevantEntries_cons_skip (exts : List String) (ignoreExt : Bool)
    (f : FileStat) (rest : List FileStat)
    (hrel : (ignoreExt && !isAudioFile exts f.path) = true) :
    relevantEntries exts ignoreExt (f :: rest) =
      relevantEntries exts ignoreExt rest := by
  simp only [relevantEntries, List.filterMap_cons]
  rw [if_pos hrel]

theorem relevantEntries_cons_keep (exts : List String) (ignoreExt : Bool)
    (f : FileStat) (rest : List FileStat)
    (hrel : ¬((ignoreExt && !isAudioFile exts f.path) = true)) :
    relevantEntries exts ignoreExt (f :: rest) =
      (f.path, Rat.floor f.mtimeMs) :: relevantEntries exts ignoreExt rest := by
  simp only [relevantEntries, List.filterMap_cons]
  rw [if_neg hrel]

theorem buildSnap_go (exts : List String) (ignoreExt : Bool) :
    ∀ (files : List FileStat) (m : List (String × Int)),
      (files.map FileStat.path).Nodup →
      (∀ kv ∈ m, kv.1 ∉ files.map FileStat.path) →
      files.foldl (fun m2 f =>
          if ignoreExt && !isAudioFile exts f.path then m2
          else mapSet m2 f.path (Rat.floor f.mtimeMs)) m =
        m ++ relevantEntries exts ignoreExt files := by
  intro files
  induction files with
  | nil =>
    intro m _ _
    simp [relevantEntries]
  | cons f rest ih =>
    intro m hnd hdisj
    have hnd0 := hnd
    rw [List.map_cons, List.nodup_cons] at hnd0
    rw [List.foldl_cons]
    by_cases hrel : (ignoreExt && !isAudioFile exts f.path) = true
    · rw [if_pos hrel, ih m hnd0.2 (fun kv hkv => fun hm =>
        hdisj kv hkv (List.map_cons .. ▸ List.mem_cons_of_mem _ hm))]
      rw [relevantEntries_cons_skip exts ignoreExt f rest hrel]
    · rw [if_neg hrel]
      rw [mapSet_of_not_mem m f.path _ (fun kv hkv => fun he =>
        hdisj kv hkv (List.map_cons .. ▸ (he ▸ List.mem_cons_self _ _)))]
      rw [ih (m ++ [(f.path, Rat.floor f.mtimeMs)]) hnd0.2 ?_]
      · rw [List.append_assoc, relevantEntries_cons_keep exts ignoreExt f rest hrel]
        rfl
      · intro kv hkv
        rcases List.mem_append.mp hkv with hkm | hks
        · exact fun hm =>
            hdisj kv hkm (List.map_cons .. ▸ List.mem_cons_of_mem _ hm)
        · simp only [List.mem_singleton] at hks
          rw [hks]
          exact hnd0.1

theorem refreshLocalMtimes_eq (exts : List String) (ignoreExt : Bool)
    (files : List FileStat) (e : Engine)
    (hf : (files.map FileStat.path).Nodup) :
    (refreshLocalMtimes exts ignoreExt files e).localMtimes =
      relevantEntries exts ignoreExt files := by
  have h := buildSnap_go exts ignoreExt files [] hf (by simp)
  rw [refreshLocalMtimes]
  simpa using h

theorem relevantEntries_fst_sublist (exts : List String) (ignoreExt : Bool)
    (files : List FileStat) :
    List.Sublist ((relevantEntries exts ignoreExt files).map Prod.fst)
      (files.map FileStat.path) := by
  induction files with
  | nil => simp [relevantEntries]
  | cons f rest ih =>
    by_cases hrel : (ignoreExt && !isAudioFile exts f.path) = true
    · rw [relevantEntries_cons_skip exts ignoreExt f rest hrel, List.map_cons]
      exact ih.cons _
    · rw [relevantEntries_cons_keep exts ignoreExt f rest hrel, List.map_cons,
        List.map_cons]
      exact ih.cons₂ _

theorem mem_relevantEntries (exts : List String) (ignoreExt : Bool)
    (files : List FileStat) (p : String) (v : Int) :
    (p, v) ∈ relevantEntries exts ignoreExt files ↔
      ∃ f ∈ files, (ignoreExt && !isAudioFile exts f.path) = false ∧
        f.path = p ∧ Rat.floor f.mtimeMs = v := by
  simp only [relevantEntries]
  rw [List.mem_filterMap]
  constructor
  · rintro ⟨f, hf, hg⟩
    by_cases hrel : (ignoreExt && !isAudioFile exts f.path) = true
    · rw [if_pos hrel] at hg
      cases hg
    · rw [if_neg hrel] at hg
      have h2 := Option.some.inj hg
      exact ⟨f, hf, Bool.not_eq_true _ ▸ hrel,
        congrArg Prod.fst h2, congrArg Prod.snd h2⟩
  · rintro ⟨f, hf, hrel, hp, hv⟩
    exact ⟨f, hf, by rw [if_neg (by simp [hrel]), hp, hv]⟩

/-! ### The dead-row sweep `removeDeadTracks` -/

theorem list_any_congr (l : List (String × Int)) (f g : String × Int → Bool)
    (h : ∀ a ∈ l, f a = g a) : l.any f = l.any g := by
  induction l with
  | nil => rfl
  | cons a rest ih =>
    rw [List.any_cons, List.any_cons, h a (List.mem_cons_self a rest),
      ih (fun b hb => h b (List.mem_cons_of_mem a hb))]

theorem rdtGo_rows : ∀ (l : List (String × Int)) (e : Engine) (ev : List Event),
    (l.map Prod.fst).Nodup →
    (removeDeadTracksGo l e ev).1.store.rows =
      e.store.rows.filter (fun r =>
        !(l.any (fun x => x.1 == r.path && falsyGet e.localMtimes x.1))) := by
  intro l
  induction l with
  | nil =>
    intro e ev _
    simp [removeDeadTracksGo]
  | cons x rest ih =>
    obtain ⟨p, mt⟩ := x
    intro e ev hnd
    rw [List.map_cons, List.nodup_cons] at hnd
    cases hg : mapGet e.localMtimes p with
    | none =>
      have hfp : falsyGet e.localMtimes p = true := by rw [falsyGet, hg]
      rw [show removeDeadTracksGo ((p, mt) :: rest) e ev =
          removeDeadTracksGo rest (removeDbTrack p e).1
            (ev ++ (removeDbTrack p e).2) from by
        simp only [removeDeadTracksGo, hg]]
      rw [ih _ _ hnd.2]
      show (e.store.rows.filter (fun r => r.path != p)).filter
          (fun r => !(rest.any (fun x => x.1 == r.path && falsyGet e.localMtimes x.1))) = _
      rw [List.filter_filter]
      refine List.filter_congr (fun r _ => ?_)
      by_cases hrp : r.path = p
      · have h1 : (r.path != p) = false := by simp [hrp]
        have h2 : (p == r.path) = true := by simp [hrp]
        rw [List.any_cons, hfp, h1, h2]
        simp
      · have h1 : (r.path != p) = true := by simp [hrp]
        have h2 : (p == r.path) = false := by
          have hpr : ¬(p = r.path) := fun he => hrp he.symm
          simp [hpr]
        rw [List.any_cons, hfp, h1, h2]
        simp
    | some lm =>
      by_cases h0 : (lm == 0) = true
      · have hfp : falsyGet e.localMtimes p = true := by
          rw [falsyGet, hg]
          exact h0
        rw [show removeDeadTracksGo ((p, mt) :: rest) e ev =
            removeDeadTracksGo rest (removeDbTrack p e).1
              (ev ++ (removeDbTrack p e).2) from by
          simp only [removeDeadTracksGo, hg]
          rw [if_pos h0]]
        rw [ih _ _ hnd.2]
        show (e.store.rows.filter (fun r => r.path != p)).filter
            (fun r => !(rest.any (fun x => x.1 == r.path && falsyGet e.localMtimes x.1))) = _
        rw [List.filter_filter]
        refine List.filter_congr (fun r _ => ?_)
        by_cases hrp : r.path = p
        · have h1 : (r.path != p) = false := by simp [hrp]
          have h2 : (p == r.path) = true := by simp [hrp]
          rw [List.any_cons, hfp, h1, h2]
          simp
        · have h1 : (r.path != p) = true := by simp [hrp]
          have h2 : (p == r.path) = false := by
            have hpr : ¬(p = r.path) := fun he => hrp he.symm
            simp [hpr]
          rw [List.any_cons, hfp, h1, h2]
          simp
      · have hfp : falsyGet e.localMtimes p = false := by
          rw [falsyGet, hg]
          simpa using h0
        by_cases hmt : (lm == mt) = true
        · rw [show removeDeadTracksGo ((p, mt) :: rest) e ev =
              removeDeadTracksGo rest
                { e with localMtimes := mapDelete e.localMtimes p } ev from by
            simp only [removeDeadTracksGo, hg]
            rw [if_neg h0, if_pos hmt]]
          rw [ih _ _ hnd.2]
          show e.store.rows.filter (fun r =>
              !(rest.any (fun x => x.1 == r.path &&
                falsyGet (mapDelete e.localMtimes p) x.1))) = _
          refine List.filter_congr (fun r _ => ?_)
          have hany : rest.any (fun x => x.1 == r.path &&
                falsyGet (mapDelete e.localMtimes p) x.1) =
              rest.any (fun x => x.1 == r.path && falsyGet e.localMtimes x.1) := by
            refine list_any_congr rest _ _ (fun a ha => ?_)
            have hap : a.1 ≠ p := fun he =>
              hnd.1 (he ▸ List.mem_map.mpr ⟨a, ha, rfl⟩)
            rw [falsyGet_mapDelete_ne e.localMtimes p a.1 hap]
          rw [hany, List.any_cons, hfp]
          simp
        · rw [show removeDeadTracksGo ((p, mt) :: rest) e ev =
              removeDeadTracksGo rest e ev from by
            simp only [removeDeadTracksGo, hg]
            rw [if_neg h0, if_neg hmt]]
          rw [ih _ _ hnd.2]
          refine List.filter_congr (fun r _ => ?_)
          rw [List.any_cons, hfp]
          simp

theorem rdtGo_mapGet : ∀ (l : List (String × Int)) (e : Engine) (ev : List Event),
    (l.map Prod.fst).Nodup → ∀ q : String,
    mapGet (removeDeadTracksGo l e ev).1.localMtimes q =
      if ∃ x ∈ l, x.1 = q ∧ mapGet e.localMtimes q = some x.2 ∧ x.2 ≠ 0 then none
      else mapGet e.localMtimes q := by
  intro l
  induction l with
  | nil =>
    intro e ev _ q
    simp [removeDeadTracksGo]
  | cons x rest ih =>
    obtain ⟨p, mt⟩ := x
    intro e ev hnd q
    rw [List.map_cons, List.nodup_cons] at hnd
    cases hg : mapGet e.localMtimes p with
    | none =>
      rw [show removeDeadTracksGo ((p, mt) :: rest) e ev =
          removeDeadTracksGo rest (removeDbTrack p e).1
            (ev ++ (removeDbTrack p e).2) from by
        simp only [removeDeadTracksGo, hg]]
      rw [ih _ _ hnd.2 q]
      show (if ∃ x ∈ rest, x.1 = q ∧ mapGet e.localMtimes q = some x.2 ∧ x.2 ≠ 0
          then none else mapGet e.localMtimes q) = _
      refine if_congr ?_ rfl rfl
      constructor
      · rintro ⟨x, hx, hxq⟩
        exact ⟨x, List.mem_cons_of_mem _ hx, hxq⟩
      · rintro ⟨x, hx, hq1, hq2, hq3⟩
        rcases List.mem_cons.mp hx with rfl | hx2
        · rw [← hq1, hg] at hq2
          cases hq2
        · exact ⟨x, hx2, hq1, hq2, hq3⟩
    | some lm =>
      by_cases h0 : (lm == 0) = true
      · rw [show removeDeadTracksGo ((p, mt) :: rest) e ev =
            removeDeadTracksGo rest (removeDbTrack p e).1
              (ev ++ (removeDbTrack p e).2) from by
          simp only [removeDeadTracksGo, hg]
          rw [if_pos h0]]
        rw [ih _ _ hnd.2 q]
        show (if ∃ x ∈ rest, x.1 = q ∧ mapGet e.localMtimes q = some x.2 ∧ x.2 ≠ 0
            then none else mapGet e.localMtimes q) = _
        refine if_congr ?_ rfl rfl
        constructor
        · rintro ⟨x, hx, hxq⟩
          exact ⟨x, List.mem_cons_of_mem _ hx, hxq⟩
        · rintro ⟨x, hx, hq1, hq2, hq3⟩
          rcases List.mem_cons.mp hx with rfl | hx2
          · rw [← hq1, hg] at hq2
            have hlm0 : lm = 0 := beq_iff_eq.mp h0
            exact absurd ((Option.some.inj hq2).symm.trans hlm0) hq3
          · exact ⟨x, hx2, hq1, hq2, hq3⟩
      · by_cases hmt : (lm == mt) = true
        · have hlm : lm = mt := beq_iff_eq.mp hmt
          rw [show removeDeadTracksGo ((p, mt) :: rest) e ev =
              removeDeadTracksGo rest
                { e with localMtimes := mapDelete e.localMtimes p } ev from by
            simp only [removeDeadTracksGo, hg]
            rw [if_neg h0, if_pos hmt]]
          rw [ih _ _ hnd.2 q]
          show (if ∃ x ∈ rest, x.1 = q ∧
                mapGet (mapDelete e.localMtimes p) q = some x.2 ∧ x.2 ≠ 0
              then none else mapGet (mapDelete e.localMtimes p) q) = _
          by_cases hq : q = p
          · subst hq
            have hmtne : mt ≠ 0 := by
              intro h2
              exact h0 (beq_iff_eq.mpr (hlm.trans h2))
            have hhead : ∃ x ∈ (q, mt) :: rest, x.1 = q ∧
                mapGet e.localMtimes q = some x.2 ∧ x.2 ≠ 0 :=
              ⟨(q, mt), List.mem_cons_self _ _, rfl, by rw [hg, hlm], hmtne⟩
            rw [mapGet_mapDelete_self, if_pos hhead, ite_self]
          · rw [mapGet_mapDelete_ne e.localMtimes p q hq]
            refine if_congr ?_ rfl rfl
            constructor
            · rintro ⟨x, hx, hxq⟩
              exact ⟨x, List.mem_cons_of_mem _ hx, hxq⟩
            · rintro ⟨x, hx, hq1, hq2, hq3⟩
              rcases List.mem_cons.mp hx with rfl | hx2
              · have hq1' : p = q := hq1
                exact absurd hq1'.symm hq
              · exact ⟨x, hx2, hq1, hq2, hq3⟩
        · rw [show removeDeadTracksGo ((p, mt) :: rest) e ev =
              removeDeadTracksGo rest e ev from by
            simp only [removeDeadTracksGo, hg]
            rw [if_neg h0, if_neg hmt]]
          rw [ih _ _ hnd.2 q]
          refine if_congr ?_ rfl rfl
          constructor
          · rintro ⟨x, hx, hxq⟩
            exact ⟨x, List.mem_cons_of_mem _ hx, hxq⟩
          · rintro ⟨x, hx, hq1, hq2, hq3⟩
            rcases List.mem_cons.mp hx with rfl | hx2
            · rw [← hq1, hg] at hq2
              exact absurd (beq_iff_eq.mpr (Option.some.inj hq2)) hmt
            · exact ⟨x, hx2, hq1, hq2, hq3⟩

theorem rdtGo_localMtimes_sublist : ∀ (l : List (String × Int)) (e : Engine)
    (ev : List Event),
    List.Sublist (removeDeadTracksGo l e ev).1.localMtimes e.localMtimes := by
  intro l
  induction l with
  | nil =>
    intro e ev
    exact List.Sublist.refl _
  | cons x rest ih =>
    obtain ⟨p, mt⟩ := x
    intro e ev
    cases hg : mapGet e.localMtimes p with
    | none =>
      rw [show removeDeadTracksGo ((p, mt) :: rest) e ev =
          removeDeadTracksGo rest (removeDbTrack p e).1
            (ev ++ (removeDbTrack p e).2) from by
        simp only [removeDeadTracksGo, hg]]
      exact ih _ _
    | some lm =>
      by_cases h0 : (lm == 0) = true
      · rw [show removeDeadTracksGo ((p, mt) :: rest) e ev =
            removeDeadTracksGo rest (removeDbTrack p e).1
              (ev ++ (removeDbTrack p e).2) from by
          simp only [removeDeadTracksGo, hg]
          rw [if_pos h0]]
        exact ih _ _
      · by_cases hmt : (lm == mt) = true
        · rw [show removeDeadTracksGo ((p, mt) :: rest) e ev =
              removeDeadTracksGo rest
                { e with localMtimes := mapDelete e.localMtimes p } ev from by
            simp only [removeDeadTracksGo, hg]
            rw [if_neg h0, if_pos hmt]]
          exact (ih _ _).trans (mapDelete_sublist e.localMtimes p)
        · rw [show removeDeadTracksGo ((p, mt) :: rest) e ev =
              removeDeadTracksGo rest e ev from by
            simp only [removeDeadTracksGo, hg]
            rw [if_neg h0, if_neg hmt]]
          exact ih _ _

/-! ### The upsert sweep `addUpdatedTracks` -/

theorem countPath_cons (p : String) (r : Row) (rows : List Row) :
    countPath p (r :: rows) =
      (if r.path = p then 1 else 0) + countPath p rows := by
  by_cases h : r.path = p
  · rw [countPath, countPath, List.filter_cons, if_pos (by simp [h]), if_pos h,
      List.length_cons]
    omega
  · rw [countPath, countPath, List.filter_cons, if_neg (by simp [h]), if_neg h]
    omega

theorem countPath_eq_zero (p : String) (rows : List Row)
    (h : p ∉ rows.map Row.path) : countPath p rows = 0 := by
  induction rows with
  | nil => rfl
  | cons r rest ih =>
    rw [List.map_cons] at h
    rw [countPath_cons, if_neg (fun he => h (by
        rw [← he]
        exact List.mem_cons_self _ _)),
      ih (fun hm => h (List.mem_cons_of_mem _ hm))]

theorem countPath_nodup (p : String) (rows : List Row)
    (h : (rows.map Row.path).Nodup) :
    countPath p rows = if p ∈ rows.map Row.path then 1 else 0 := by
  induction rows with
  | nil => simp [countPath]
  | cons r rest ih =>
    rw [List.map_cons, List.nodup_cons] at h
    rw [countPath_cons, ih h.2, List.map_cons]
    by_cases hrp : r.path = p
    · rw [if_pos hrp, if_neg (hrp ▸ h.1),
        if_pos (hrp ▸ List.mem_cons_self _ _)]
    · have hpr : ¬(p = r.path) := fun he => hrp he.symm
      rw [if_neg hrp]
      by_cases hm : p ∈ rest.map Row.path
      · rw [if_pos hm, if_pos (List.mem_cons_of_mem _ hm)]
      · rw [if_neg hm, if_neg (by
          rw [List.mem_cons]
          rintro (h2 | h2)
          · exact hpr h2
          · exact hm h2)]

theorem countPath_eq_map (p : String) (rows : List Row) :
    countPath p rows =
      ((rows.map Row.path).filter (fun q => q == p)).length := by
  induction rows with
  | nil => rfl
  | cons r rest ih =>
    rw [countPath_cons, List.map_cons, List.filter_cons, ih]
    by_cases h : r.path = p
    · rw [if_pos h, if_pos (by simp [h]), List.length_cons]
      omega
    · rw [if_neg h, if_neg (by simp [h])]
      omega

theorem countPath_filter (rows : List Row) (g : String → Bool) (p : String) :
    countPath p (rows.filter (fun r => g r.path)) =
      if g p = true then countPath p rows else 0 := by
  induction rows with
  | nil => simp [countPath]
  | cons r rest ih =>
    by_cases hrp : r.path = p
    · by_cases hga : g r.path = true
      · have hgp : g p = true := hrp ▸ hga
        rw [List.filter_cons, if_pos hga, countPath_cons, ih, if_pos hgp,
          if_pos hgp, countPath_cons]
      · have hgp : ¬(g p = true) := by
          rw [← hrp]
          exact hga
        rw [List.filter_cons, if_neg hga, ih, if_neg hgp, if_neg hgp]
    · by_cases hga : g r.path = true
      · rw [List.filter_cons, if_pos hga, countPath_cons, if_neg hrp, ih]
        by_cases hgp : g p = true
        · rw [if_pos hgp, if_pos hgp, countPath_cons, if_neg hrp]
        · rw [if_neg hgp, if_neg hgp]
      · rw [List.filter_cons, if_neg hga, ih]
        by_cases hgp : g p = true
        · rw [if_pos hgp, if_pos hgp, countPath_cons, if_neg hrp]
          omega
        · rw [if_neg hgp, if_neg hgp]

theorem rowlist_any_falsy (rows : List Row) (m2 : List (String × Int)) (r : Row)
    (hr : r ∈ rows) :
    ((rows.map (fun r2 => (r2.path, r2.mtime))).any
        (fun x => x.1 == r.path && falsyGet m2 x.1)) = falsyGet m2 r.path := by
  cases hfg : falsyGet m2 r.path
  · refine List.any_eq_false.mpr (fun x hx => ?_)
    obtain ⟨r2, _, rfl⟩ := List.mem_map.mp hx
    intro hcontra
    rw [Bool.and_eq_true] at hcontra
    have hpp : r2.path = r.path := beq_iff_eq.mp hcontra.1
    rw [hpp, hfg] at hcontra
    cases hcontra.2
  · refine List.any_eq_true.mpr ⟨(r.path, r.mtime), List.mem_map.mpr ⟨r, hr, rfl⟩, ?_⟩
    simp [hfg]

theorem upsert_rows_path_map (s : Store) (t : Track)
    (h : s.rows.any (fun r => r.path == t.path) = true) :
    (s.upsert t).rows.map Row.path = s.rows.map Row.path := by
  rw [Store.upsert, if_pos h, List.map_map]
  refine List.map_congr_left (fun r _ => ?_)
  by_cases hc : (r.path == t.path) = true
  · simp only [Function.comp_apply, if_pos hc]
    rfl
  · simp only [Function.comp_apply, if_neg hc]

theorem upsert_countPath (s : Store) (t : Track) (p : String) :
    countPath p (s.upsert t).rows =
      if s.rows.any (fun r => r.path == t.path) = true then countPath p s.rows
      else countPath p s.rows + (if p = t.path then 1 else 0) := by
  by_cases h : s.rows.any (fun r => r.path == t.path) = true
  · rw [if_pos h, countPath_eq_map, countPath_eq_map, upsert_rows_path_map s t h]
  · rw [if_neg h, Store.upsert, if_neg h, countPath, countPath,
      List.filter_append, List.length_append]
    congr 1
    by_cases hp : p = t.path
    · rw [List.filter_cons, if_pos (by simp [hp]), if_pos hp]
      rfl
    · rw [List.filter_cons, if_neg (by
        have : t.path ≠ p := fun he => hp he.symm
        simp [this]), if_neg hp]
      rfl

theorem upsert_nodup (s : Store) (t : Track)
    (h : (s.rows.map Row.path).Nodup) :
    ((s.upsert t).rows.map Row.path).Nodup := by
  by_cases hc : s.rows.any (fun r => r.path == t.path) = true
  · rw [upsert_rows_path_map s t hc]
    exact h
  · have hnm : t.path ∉ s.rows.map Row.path := by
      intro hm
      obtain ⟨r, hr, hrp⟩ := List.mem_map.mp hm
      exact hc (List.any_eq_true.mpr ⟨r, hr, by simp [hrp]⟩)
    rw [Store.upsert, if_neg hc, List.map_append, List.nodup_append]
    refine ⟨h, List.nodup_singleton _, ?_⟩
    intro a ha hb
    simp only [List.map_cons, List.map_nil, List.mem_singleton] at hb
    exact hnm (hb ▸ ha)

theorem upsert_mem (s : Store) (t : Track) (r2 : Row)
    (h : r2 ∈ (s.upsert t).rows) :
    (r2.path = t.path ∧ r2.mtime = t.mtime ∧ r2.meta = t.meta) ∨
      (r2 ∈ s.rows ∧ r2.path ≠ t.path) := by
  by_cases hc : s.rows.any (fun r => r.path == t.path) = true
  · rw [Store.upsert, if_pos hc] at h
    obtain ⟨r0, hr0, heq⟩ := List.mem_map.mp h
    by_cases hp : (r0.path == t.path) = true
    · rw [if_pos hp] at heq
      left
      rw [← heq]
      exact ⟨beq_iff_eq.mp hp, rfl, rfl⟩
    · rw [if_neg hp] at heq
      right
      rw [← heq]
      exact ⟨hr0, by simpa using hp⟩
  · rw [Store.upsert, if_neg hc] at h
    rcases List.mem_append.mp h with hin | hnew
    · right
      refine ⟨hin, fun he => ?_⟩
      exact hc (List.any_eq_true.mpr ⟨r2, hin, by simp [he]⟩)
    · left
      rw [List.mem_singleton] at hnew
      rw [hnew]
      exact ⟨rfl, rfl, rfl⟩

theorem Store.upsert_exists_row (s : Store) (t : Track) :
    ∃ r ∈ (s.upsert t).rows,
      r.path = t.path ∧ r.mtime = t.mtime ∧ r.meta = t.meta := by
  by_cases h : s.rows.any (fun r => r.path == t.path) = true
  · obtain ⟨r0, h0, hb⟩ := List.any_eq_true.mp h
    refine ⟨overwriteRow r0 t, ?_, beq_iff_eq.mp hb, rfl, rfl⟩
    rw [Store.upsert, if_pos h]
    exact List.mem_map.mpr ⟨r0, h0, by simp [hb, overwriteRow]⟩
  · refine ⟨{ id := s.freshId, disk := 1, path := t.path,
              mtime := t.mtime, meta := t.meta }, ?_, rfl, rfl, rfl⟩
    rw [Store.upsert, if_neg h]
    simp

theorem upsert_path_mem (s : Store) (t : Track) :
    t.path ∈ (s.upsert t).rows.map Row.path := by
  obtain ⟨r, hr, hp, _, _⟩ := Store.upsert_exists_row s t
  exact List.mem_map.mpr ⟨r, hr, hp⟩

theorem autGo_countPath (mm : String → Option (MMCommon × MMFormat)) :
    ∀ (l : List (String × Int)) (e : Engine) (ev : List Event) (p : String),
    (l.map Prod.fst).Nodup → (e.store.rows.map Row.path).Nodup →
    countPath p (addUpdatedTracksGo mm l e ev).1.store.rows =
      if p ∈ l.map Prod.fst then 1 else countPath p e.store.rows := by
  intro l
  induction l with
  | nil =>
    intro e ev p _ _
    simp [addUpdatedTracksGo]
  | cons x rest ih =>
    obtain ⟨q, mt⟩ := x
    intro e ev p hnd hrows
    rw [List.map_cons, List.nodup_cons] at hnd
    rw [show addUpdatedTracksGo mm ((q, mt) :: rest) e ev =
        addUpdatedTracksGo mm rest
          (upsertDbTrack { path := q, mtime := mt, meta := getMetaData mm q } e).1
          (ev ++ (upsertDbTrack { path := q, mtime := mt, meta := getMetaData mm q } e).2)
      from by simp only [addUpdatedTracksGo]]
    rw [ih _ _ p hnd.2 (upsert_nodup e.store _ hrows)]
    by_cases hp : p ∈ rest.map Prod.fst
    · rw [if_pos hp, if_pos (by
        rw [List.map_cons]
        exact List.mem_cons_of_mem _ hp)]
    · rw [if_neg hp]
      by_cases hpq : p = q
      · subst hpq
        rw [if_pos (by
          rw [List.map_cons]
          exact List.mem_cons_self _ _)]
        show countPath p (Store.upsert e.store
          { path := p, mtime := mt, meta := getMetaData mm p }).rows = 1
        rw [countPath_nodup _ _ (upsert_nodup e.store _ hrows),
          if_pos (upsert_path_mem e.store _)]
      · rw [if_neg (by
          rw [List.map_cons, List.mem_cons]
          rintro (h2 | h2)
          · exact hpq h2
          · exact hp h2)]
        show countPath p (Store.upsert e.store
          { path := q, mtime := mt, meta := getMetaData mm q }).rows =
          countPath p e.store.rows
        rw [upsert_countPath]
        show (if (e.store.rows.any fun r => r.path == q) = true then
            countPath p e.store.rows
          else countPath p e.store.rows + if p = q then 1 else 0) =
          countPath p e.store.rows
        by_cases hc : (e.store.rows.any fun r => r.path == q) = true
        · rw [if_pos hc]
        · rw [if_neg hc, if_neg hpq]
          omega

theorem autGo_mem (mm : String → Option (MMCommon × MMFormat)) :
    ∀ (l : List (String × Int)) (e : Engine) (ev : List Event) (r2 : Row),
    r2 ∈ (addUpdatedTracksGo mm l e ev).1.store.rows →
    ((r2.path, r2.mtime) ∈ l) ∨
      (r2 ∈ e.store.rows ∧ r2.path ∉ l.map Prod.fst) := by
  intro l
  induction l with
  | nil =>
    intro e ev r2 h
    right
    exact ⟨h, by simp⟩
  | cons x rest ih =>
    obtain ⟨q, mt⟩ := x
    intro e ev r2 h
    rw [show addUpdatedTracksGo mm ((q, mt) :: rest) e ev =
        addUpdatedTracksGo mm rest
          (upsertDbTrack { path := q, mtime := mt, meta := getMetaData mm q } e).1
          (ev ++ (upsertDbTrack { path := q, mtime := mt, meta := getMetaData mm q } e).2)
      from by simp only [addUpdatedTracksGo]] at h
    rcases ih _ _ r2 h with hl | ⟨hin, hnm⟩
    · exact Or.inl (List.mem_cons_of_mem _ hl)
    · rcases upsert_mem e.store _ r2 hin with ⟨hp, hm, _⟩ | ⟨hin2, hne⟩
      · left
        rw [List.mem_cons]
        left
        have hp2 : r2.path = q := hp
        have hm2 : r2.mtime = mt := hm
        rw [hp2, hm2]
      · right
        refine ⟨hin2, fun hm3 => ?_⟩
        rw [List.map_cons] at hm3
        rcases List.mem_cons.mp hm3 with h2 | h2
        · exact hne h2
        · exact hnm h2

theorem likeMatchL_append_percent (p s : List Char) :
    likeMatchL (p ++ ['%']) (p ++ s) = true := by
  induction p with
  | nil =>
    refine List.any_eq_true.mpr ⟨[], by simp [List.mem_tails], ?_⟩
    simp [likeMatchL]
  | cons c p ih =>
    by_cases hc : c = '%'
    · subst hc
      show List.any _ _ = true
      exact List.any_eq_true.mpr ⟨p ++ s, by simp [List.mem_tails, List.suffix_cons], ih⟩
    · simp only [likeMatchL, hc, if_false]
      simp [ih]

theorem likeMatch_prefix (dir rest : String) :
    likeMatch (dir ++ "/%") (dir ++ "/" ++ rest) = true := by
  have h1 : (dir ++ "/%").data = (dir.data ++ ['/']) ++ ['%'] := by
    rw [String.data_append, List.append_assoc]
    rfl
  have h2 : (dir ++ "/" ++ rest).data = (dir.data ++ ['/']) ++ rest.data := by
    rw [String.data_append, String.data_append]
  rw [likeMatch, h1, h2]
  exact likeMatchL_append_percent _ _

theorem upsertDirEntries_watcher (exts : List String) (ignoreExt : Bool)
    (mm : String → Option (MMCommon × MMFormat)) :
    ∀ (l : List DirEntry) (e : Engine) (ev : List Event),
      (upsertDirEntries exts ignoreExt mm l e ev).1.watcher = e.watcher := by
  intro l
  induction l with
  | nil => intro e ev; rfl
  | cons f rest ih =>
    intro e ev
    by_cases h1 : f.isDir = true
    · simp only [upsertDirEntries, h1, if_true]
      exact ih e ev
    · by_cases h2 : (ignoreExt && !isAudioFile exts f.path) = true
      · simp only [upsertDirEntries, h1, h2, if_false, if_true]
        exact ih e ev
      · simp only [upsertDirEntries, h1, h2, if_false]
        exact ih _ _

/-- C4 (amended): on a unique-constraint conflict on `path`, every
`TRACK_ATTRS` column except `path` (mtime and the descriptive columns) is
overwritten with the excluded row's values while the table's `id` and
`disk` columns keep their stored values; when the path has no row, a full
new row is inserted with the next rowid (one more than the largest id in
use, as sqlite assigns for this non-AUTOINCREMENT INTEGER PRIMARY KEY) and
the schema default `disk = 1`; either way a single `add` notification
carrying the track is emitted. -/
theorem c4_upsert_semantics (t : Track) (e : Engine) :
    ((∃ r ∈ e.store.rows, r.path = t.path) →
       (upsertDbTrack t e).1.store.rows =
         e.store.rows.map (fun r =>
           if r.path = t.path then
             { id := r.id, disk := r.disk, path := r.path,
               mtime := t.mtime, meta := t.meta }
           else r)) ∧
    ((∀ r ∈ e.store.rows, r.path ≠ t.path) →
       (upsertDbTrack t e).1.store.rows =
         e.store.rows ++ [{ id := e.store.freshId, disk := 1, path := t.path,
                            mtime := t.mtime, meta := t.meta }]) ∧
    (upsertDbTrack t e).2 = [Event.add t] := by
  refine ⟨fun hc => ?_, fun hn => ?_, rfl⟩
  · obtain ⟨r0, hr0, hp⟩ := hc
    have hany : e.store.rows.any (fun r => r.path == t.path) = true :=
      List.any_eq_true.mpr ⟨r0, hr0, by simp [hp]⟩
    show (Store.upsert e.store t).rows = _
    rw [Store.upsert, if_pos hany]
    exact List.map_congr_left (fun r _ => by
      by_cases h : r.path = t.path <;> simp [h, overwriteRow])
  · have hany : ¬(e.store.rows.any (fun r => r.path == t.path) = true) := by
      rw [List.any_eq_true]
      rintro ⟨r, hr, hb⟩
      exact hn r hr (beq_iff_eq.mp hb)
    show (Store.upsert e.store t).rows = _
    rw [Store.upsert, if_neg hany]

/-- C4 witness: applying the amended upsert characterization at the
concrete conflicting fixture. -/
theorem c4_upsert_semantics_witness :
    (upsertDbTrack c4track c4engine).1.store.rows =
      c4engine.store.rows.map (fun r =>
        if r.path = c4track.path then
          { id := r.id, disk := r.disk, path := r.path,
            mtime := c4track.mtime, meta := c4track.meta }
        else r) :=
  (c4_upsert_semantics c4track c4engine).1 ⟨c4oldRow, by decide, by decide⟩

/-- C5 (amended): `removeDbDir dir` deletes exactly the rows whose path
matches the sqlite `LIKE` pattern `dir ++ "/%"` (an ASCII-case-insensitive
match in which `%` and `_` occurring in `dir` act as wildcards); in
particular every row whose path literally extends `dir ++ "/"` is deleted,
the store is unchanged when no row matches the pattern, and a single
`remove` notification carrying the directory path is emitted. -/
theorem c5_remove_dir_like_semantics (dir : String) (e : Engine) :
    (removeDbDir dir e).1.store.rows =
      e.store.rows.filter (fun r => !likeMatch (dir ++ "/%") r.path) ∧
    (∀ r ∈ e.store.rows, (∃ rest, r.path = dir ++ "/" ++ rest) →
       r ∉ (removeDbDir dir e).1.store.rows) ∧
    ((∀ r ∈ e.store.rows, likeMatch (dir ++ "/%") r.path = false) →
       (removeDbDir dir e).1.store.rows = e.store.rows) ∧
    (removeDbDir dir e).2 = [Event.remove dir] := by
  refine ⟨rfl, ?_, ?_, rfl⟩
  · rintro r hr ⟨rest, hrest⟩ hmem
    have hlk : likeMatch (dir ++ "/%") r.path = true := by
      rw [hrest]; exact likeMatch_prefix dir rest
    have h2 := (List.mem_filter.mp hmem).2
    simp [hlk] at h2
  · intro hall
    exact List.filter_eq_self.mpr (fun r hr => by simp [hall r hr])

/-- C5 witness: the row under `/music/sub` is deleted by
`removeDbDir "/music/sub"`. -/
theorem c5_remove_dir_like_semantics_witness :
    c5wRow ∉ (removeDbDir "/music/sub" c5wEngine).1.store.rows :=
  (c5_remove_dir_like_semantics "/music/sub" c5wEngine).2.1 c5wRow (by decide)
    ⟨"a.mp3", by decide⟩

/-- C6 (amended): for a `remove` notification on a directory under an
active watch, exactly two removal notifications are emitted — one by the
unconditional single-row delete attempt and one by the directory delete —
both carrying the directory path itself (never the individual deleted file
paths), and every row whose path is the directory or lies under it is
deleted from the store. -/
theorem c6_remove_event_characterization (exts : List String) (ignoreExt : Bool)
    (mm : String → Option (MMCommon × MMFormat)) (fsv : FsView)
    (dir : String) (e : Engine) :
    (watchCallback exts ignoreExt mm fsv .remove dir e).2.filter Event.isRemove =
      [Event.remove dir, Event.remove dir] ∧
    (∀ r ∈ e.store.rows, (r.path = dir ∨ ∃ rest, r.path = dir ++ "/" ++ rest) →
       r ∉ (watchCallback exts ignoreExt mm fsv .remove dir e).1.store.rows) := by
  constructor
  · show ([Event.synced false] ++ [Event.remove dir] ++ [Event.remove dir] ++
        [Event.synced true]).filter Event.isRemove = _
    simp [Event.isRemove]
  · rintro r hr h hmem
    have hmem2 : r ∈ ((e.store.rows.filter (fun x => x.path != dir)).filter
        (fun x => !likeMatch (dir ++ "/%") x.path)) := hmem
    have h1 := (List.mem_filter.mp (List.mem_filter.mp hmem2).1).2
    have h2 := (List.mem_filter.mp hmem2).2
    rcases h with hp | ⟨rest, hrest⟩
    · simp [hp] at h1
    · have hlk : likeMatch (dir ++ "/%") r.path = true := by
        rw [hrest]; exact likeMatch_prefix dir rest
      simp [hlk] at h2

/-- C6 witness: a concrete row under the removed directory is gone from
the store after the remove notification is processed. -/
theorem c6_remove_event_characterization_witness :
    { id := 1, disk := 1, path := "/music/sub/a.mp3", mtime := 5,
      meta := emptyMeta : Row } ∉
      (watchCallback ["mp3"] true mmNone deadFs .remove "/music/sub"
        c6engine).1.store.rows :=
  (c6_remove_event_characterization ["mp3"] true mmNone deadFs "/music/sub"
      c6engine).2 _ (by decide) (Or.inr ⟨"a.mp3", by decide⟩)

/-- C8: while processing a live `update` notification, a thrown error whose
code is `ENOENT` is swallowed — the callback emits only the `synced`
transitions and no `error` notification — while any other code is surfaced
as exactly one `error` notification; in every case (including `remove`
notifications and all non-throwing branches) the watcher stays attached:
the `watcher` field is unchanged by the callback. -/
theorem c8_error_notification_policy (exts : List String) (ignoreExt : Bool)
    (mm : String → Option (MMCommon × MMFormat)) (fsv : FsView) (e : Engine) :
    (∀ name c, fsv.stat name = .error c →
       (watchCallback exts ignoreExt mm fsv .update name e).2 =
         [Event.synced false] ++
           (if c = "ENOENT" then [] else [Event.error c]) ++
           [Event.synced true] ∧
       (watchCallback exts ignoreExt mm fsv .update name e).1.watcher = e.watcher) ∧
    (∀ name c st, fsv.stat name = .ok st → st.isDir = true →
       fsv.readdirRec name = .error c →
       (watchCallback exts ignoreExt mm fsv .update name e).2 =
         [Event.synced false] ++
           (if c = "ENOENT" then [] else [Event.error c]) ++
           [Event.synced true] ∧
       (watchCallback exts ignoreExt mm fsv .update name e).1.watcher = e.watcher) ∧
    (∀ evt name, (watchCallback exts ignoreExt mm fsv evt name e).1.watcher = e.watcher) := by
  refine ⟨?_, ?_, ?_⟩
  · intro name c hst
    have hcb : watchCallback exts ignoreExt mm fsv .update name e =
        catchEvent c { e with isSynced := false } [Event.synced false] := by
      simp only [watchCallback, hst]
    constructor
    · rw [hcb]
      by_cases hc : c = "ENOENT" <;>
        simp [catchEvent, finishEvent, hc]
    · rw [hcb]
      rfl
  · intro name c st hst hdir hrd
    have hcb : watchCallback exts ignoreExt mm fsv .update name e =
        catchEvent c { e with isSynced := false } [Event.synced false] := by
      simp only [watchCallback, hst, hdir, if_true, hrd]
    constructor
    · rw [hcb]
      by_cases hc : c = "ENOENT" <;>
        simp [catchEvent, finishEvent, hc]
    · rw [hcb]
      rfl
  · intro evt name
    cases evt with
    | update =>
      cases hst : fsv.stat name with
      | error c => simp [watchCallback, hst, catchEvent, finishEvent]
      | ok st =>
        by_cases hdir : st.isDir = true
        · cases hrd : fsv.readdirRec name with
          | error c => simp [watchCallback, hst, hdir, hrd, catchEvent, finishEvent]
          | ok files =>
            simp [watchCallback, hst, hdir, hrd, finishEvent,
              upsertDirEntries_watcher]
        · by_cases haud : (ignoreExt && !isAudioFile exts name) = true
          · simp [watchCallback, hst, hdir, haud]
          · simp [watchCallback, hst, hdir, haud, upsertDbTrack, finishEvent]
    | remove =>
      simp [watchCallback, removeDbTrack, removeDbDir, finishEvent]

/-- C8 witness: applying the error-handling policy at a concrete stat
failure with the non-ENOENT code `EACCES`. -/
theorem c8_error_notification_policy_witness :
    (watchCallback ["mp3"] true mmNone c8fsv .update "/music/x.mp3"
        watchingEngine).2 =
      [Event.synced false] ++
        (if ("EACCES" : String) = "ENOENT" then [] else [Event.error "EACCES"]) ++
        [Event.synced true] ∧
    (watchCallback ["mp3"] true mmNone c8fsv .update "/music/x.mp3"
        watchingEngine).1.watcher = watchingEngine.watcher :=
  (c8_error_notification_policy ["mp3"] true mmNone c8fsv watchingEngine).1
    "/music/x.mp3" "EACCES" rfl

/-- C9: when the metadata parser throws on a path, `getMetaData` returns
the empty record instead of raising, and `addUpdatedTracks` still writes a
row for that path holding its path and mtime with every descriptive field
blank, emitting an `add` notification and never an `error` notification. -/
theorem c9_extraction_failure_blank_row
    (mm : String → Option (MMCommon × MMFormat)) (p : String) (m : Int)
    (e : Engine) (hfail : mm p = none) (hsnap : e.localMtimes = [(p, m)]) :
    getMetaData mm p = emptyMeta ∧
    (addUpdatedTracks mm e).2 =
      [Event.add { path := p, mtime := m, meta := emptyMeta }] ∧
    (∃ r ∈ (addUpdatedTracks mm e).1.store.rows,
       r.path = p ∧ r.mtime = m ∧ r.meta = emptyMeta) ∧
    ∀ ev ∈ (addUpdatedTracks mm e).2, ev.isError = false := by
  have hmeta : getMetaData mm p = emptyMeta := by
    rw [getMetaData, hfail]
  have hrun : addUpdatedTracks mm e =
      ({ e with store := e.store.upsert { path := p, mtime := m, meta := emptyMeta },
                localMtimes := [] },
       [Event.add { path := p, mtime := m, meta := emptyMeta }]) := by
    rw [addUpdatedTracks, hsnap]
    simp [addUpdatedTracksGo, upsertDbTrack, hmeta]
  refine ⟨hmeta, ?_, ?_, ?_⟩
  · rw [hrun]
  · rw [hrun]
    exact Store.upsert_exists_row e.store { path := p, mtime := m, meta := emptyMeta }
  · rw [hrun]
    intro ev hev
    simp at hev
    rw [hev]
    rfl

/-- C9 witness: applying the extraction-failure guarantee to a concrete
always-throwing parser and a singleton snapshot. -/
theorem c9_extraction_failure_blank_row_witness :
    getMetaData mmNone "/music/bad.mp3" = emptyMeta ∧
    (addUpdatedTracks mmNone c9engine).2 =
      [Event.add { path := "/music/bad.mp3", mtime := 3, meta := emptyMeta }] ∧
    (∃ r ∈ (addUpdatedTracks mmNone c9engine).1.store.rows,
       r.path = "/music/bad.mp3" ∧ r.mtime = 3 ∧ r.meta = emptyMeta) ∧
    ∀ ev ∈ (addUpdatedTracks mmNone c9engine).2, ev.isError = false :=
  c9_extraction_failure_blank_row mmNone "/music/bad.mp3" 3 c9engine rfl rfl

/-- C10: the older revision's batch delete and batch upsert, called with an
empty list, execute no database statement, emit no notification, and leave
the engine state unchanged. -/
theorem c10_empty_batch_noop (e : Engine) :
    removeDbTracks [] e = (e, [], []) ∧ upsertDbTracks [] e = (e, [], []) :=
  ⟨rfl, rfl⟩

/-- C2 (failing input): with a single relevant file whose floored `mtimeMs`
is 0, the second of two back-to-back full refreshes over an unchanged
filesystem emits a `remove` and an `add` notification (the claim demands
zero of each). The row set itself is preserved: the row is deleted and
re-inserted, and since `id` is a non-AUTOINCREMENT rowid alias the rowid
is reused, so only the zero-notifications half of the claim fails. -/
theorem c2_second_refresh_not_silent :
    c2secondRun.2.filter Event.isAddOrRemove =
      [Event.remove "/music/a.mp3",
       Event.add { path := "/music/a.mp3", mtime := 0, meta := emptyMeta }] ∧
    c2secondRun.1.store.rows = c2firstRun.1.store.rows := by
  decide

/-- C3 (failing input): a stored row whose mtime 0 is exactly equal to the
snapshot's observed mtime 0 is not skipped: `removeDeadTracks` deletes the
row and emits `remove`, and leaves the path in `localMtimes`, so it will be
re-extracted and upserted; by contrast, equality at a nonzero mtime (here 5)
is skipped with no notification. -/
theorem c3_equal_mtime_zero_not_skipped :
    ((removeDeadTracks c3engineEq0).1.store.rows = [] ∧
     (removeDeadTracks c3engineEq0).2 = [Event.remove "/music/a.mp3"] ∧
     (removeDeadTracks c3engineEq0).1.localMtimes = [("/music/a.mp3", 0)]) ∧
    ((removeDeadTracks c3engineEq5).1.store.rows = c3engineEq5.store.rows ∧
     (removeDeadTracks c3engineEq5).2 = [] ∧
     (removeDeadTracks c3engineEq5).1.localMtimes = []) := by
  decide

/-- C7 (failing input): an `update` notification for a non-audio file (with
`ignoreExt` on) takes the early `return` inside the watcher callback: the
pass completes without error, yet `isSynced` is left false and no
`synced true` notification is ever emitted; an audio-file update on the
same engine does toggle `isSynced` back to true. -/
theorem c7_nonaudio_update_leaves_unsynced :
    ((watchCallback ["mp3"] true mmNone plainFileFs .update "/music/notes.txt"
        watchingEngine).1.isSynced = false ∧
     (watchCallback ["mp3"] true mmNone plainFileFs .update "/music/notes.txt"
        watchingEngine).2 = [Event.synced false]) ∧
    (watchCallback ["mp3"] true mmNone plainFileFs .update "/music/b.mp3"
        watchingEngine).1.isSynced = true := by
  decide

/-- C4 (counterexample): upserting a track for an existing path does not
overwrite every non-`path` column of the row: the stored `disk` value 2 and
`id` 7 survive, although a fresh insert of the very same track writes
`disk = 1` (the schema default) and a fresh `id`. -/
theorem c4_disk_id_not_overwritten :
    (upsertDbTrack c4track c4engine).1.store.rows =
      [{ id := 7, disk := 2, path := "/music/a.mp3", mtime := 9, meta := c4meta }] ∧
    (upsertDbTrack c4track engine0).1.store.rows =
      [{ id := 1, disk := 1, path := "/music/a.mp3", mtime := 9, meta := c4meta }] ∧
    (2 : Int) ≠ 1 := by
  decide

/-- C5 (counterexample): `removeDbDir "AB"` deletes a row whose path
`ab/x.mp3` does not begin with the prefix `AB/`, because the sqlite `LIKE`
comparison is ASCII-case-insensitive; so the operation is not the claimed
literal prefix match. -/
theorem c5_like_deletes_non_prefix_row :
    (removeDbDir "AB" c5ceEngine).1.store.rows = [] ∧
    c5ceEngine.store.rows ≠ [] ∧
    "AB/".data.isPrefixOf "ab/x.mp3".data = false := by
  decide

/-- C6 (counterexample): removing a directory holding two tracked files
under an active watch deletes both rows but emits exactly two removal
notifications — not the claimed single one — both carrying the directory
path (one from the unconditional single-row delete, one from the directory
delete). -/
theorem c6_directory_remove_emits_two_notifications :
    ((watchCallback ["mp3"] true mmNone deadFs .remove "/music/sub"
        c6engine).2.filter Event.isRemove).length = 2 ∧
    (watchCallback ["mp3"] true mmNone deadFs .remove "/music/sub"
        c6engine).2.filter Event.isRemove =
      [Event.remove "/music/sub", Event.remove "/music/sub"] ∧
    (watchCallback ["mp3"] true mmNone deadFs .remove "/music/sub"
        c6engine).1.store.rows = [] := by
  decide

/-- C1: after a successful full refresh over a walked file list with
distinct paths, on a store whose rows have distinct paths (the table's
unique constraint), the tracks table contains exactly one row for every
relevant file (every file when `ignoreExt` is off, otherwise the files
passing the audio classifier), and that row's mtime is the floor-truncated
`mtimeMs` of the file; no row for a non-relevant file appears, and every
row of the table corresponds to a relevant file with matching path and
mtime. -/
theorem c1_full_refresh_completeness (exts : List String) (ignoreExt : Bool)
    (mm : String → Option (MMCommon × MMFormat)) (files : List FileStat)
    (e : Engine)
    (hf : (files.map FileStat.path).Nodup)
    (hs : (e.store.rows.map Row.path).Nodup) :
    (∀ f ∈ files, (ignoreExt = false ∨ isAudioFile exts f.path = true) →
       countPath f.path (refresh exts ignoreExt mm (Except.ok files) e).1.store.rows = 1 ∧
       ∀ r ∈ (refresh exts ignoreExt mm (Except.ok files) e).1.store.rows,
         r.path = f.path → r.mtime = Rat.floor f.mtimeMs) ∧
    (∀ f ∈ files, ignoreExt = true → isAudioFile exts f.path = false →
       countPath f.path (refresh exts ignoreExt mm (Except.ok files) e).1.store.rows = 0) ∧
    (∀ r ∈ (refresh exts ignoreExt mm (Except.ok files) e).1.store.rows,
       ∃ f ∈ files, (ignoreExt = false ∨ isAudioFile exts f.path = true) ∧
         r.path = f.path ∧ r.mtime = Rat.floor f.mtimeMs) := by
  set M : List (String × Int) := relevantEntries exts ignoreExt files with hM
  set L : List (String × Int) := (e.store.rows).map (fun r => (r.path, r.mtime)) with hL
  set E1 : Engine := refreshLocalMtimes exts ignoreExt files
    { e with watcher := false, isReady := false, isSynced := false } with hE1
  set E2 : Engine := (removeDeadTracks E1).1 with hE2
  have hmnd : (M.map Prod.fst).Nodup :=
    hf.sublist (relevantEntries_fst_sublist exts ignoreExt files)
  have hlnd : (L.map Prod.fst).Nodup := by
    rw [hL, List.map_map]
    exact hs
  have hstep1 : E1.localMtimes = M := refreshLocalMtimes_eq exts ignoreExt files _ hf
  have hrows2 : E2.store.rows = e.store.rows.filter (fun r => !falsyGet M r.path) := by
    have h1 := rdtGo_rows L E1 [] hlnd
    rw [show E2.store.rows = (removeDeadTracksGo L E1 []).1.store.rows from rfl, h1]
    rw [show E1.store.rows = e.store.rows from rfl, hstep1]
    exact List.filter_congr (fun r hr => by
      rw [hL, rowlist_any_falsy e.store.rows M r hr])
  have hm2get : ∀ q, mapGet E2.localMtimes q =
      if ∃ x ∈ L, x.1 = q ∧ mapGet M q = some x.2 ∧ x.2 ≠ 0
        then none else mapGet M q := by
    intro q
    have h1 := rdtGo_mapGet L E1 [] hlnd q
    rw [show E2.localMtimes = (removeDeadTracksGo L E1 []).1.localMtimes from rfl, h1,
      hstep1]
  have hm2sub : List.Sublist E2.localMtimes M := by
    have h1 := rdtGo_localMtimes_sublist L E1 []
    rw [hstep1] at h1
    exact h1
  have hm2nd : (E2.localMtimes.map Prod.fst).Nodup :=
    hmnd.sublist (hm2sub.map Prod.fst)
  have he2nd : (E2.store.rows.map Row.path).Nodup := by
    rw [hrows2]
    exact hs.sublist ((List.filter_sublist _).map _)
  have hfinal : (refresh exts ignoreExt mm (Except.ok files) e).1.store.rows =
      (addUpdatedTracksGo mm E2.localMtimes E2 []).1.store.rows := rfl
  have hA : ∀ p, countPath p (refresh exts ignoreExt mm (Except.ok files) e).1.store.rows =
      if (mapGet M p).isSome = true then 1 else 0 := by
    intro p
    rw [hfinal, autGo_countPath mm E2.localMtimes E2 [] p hm2nd he2nd]
    cases hg : mapGet M p with
    | none =>
      have hm2none : mapGet E2.localMtimes p = none := by
        rw [hm2get p, if_neg (by
          rintro ⟨x, hx, hq1, hq2, hq3⟩
          rw [hg] at hq2
          cases hq2)]
        exact hg
      rw [if_neg ((mapGet_eq_none_iff _ p).mp hm2none)]
      rw [hrows2, countPath_filter e.store.rows (fun q2 => !falsyGet M q2) p]
      have hfal : falsyGet M p = true := by rw [falsyGet, hg]
      rw [hfal]
      simp
    | some v =>
      by_cases hv0 : v = 0
      · have hm2p : mapGet E2.localMtimes p = some v := by
          rw [hm2get p, if_neg (by
            rintro ⟨x, hx, hq1, hq2, hq3⟩
            rw [hg] at hq2
            exact hq3 ((Option.some.inj hq2).symm.trans hv0))]
          exact hg
        rw [if_pos (mapGet_key_mem _ p v hm2p)]
        simp
      · by_cases hcond : ∃ x ∈ L, x.1 = p ∧ mapGet M p = some x.2 ∧ x.2 ≠ 0
        · have hm2p : mapGet E2.localMtimes p = none := by
            rw [hm2get p, if_pos hcond]
          rw [if_neg ((mapGet_eq_none_iff _ p).mp hm2p)]
          rw [hrows2, countPath_filter e.store.rows (fun q2 => !falsyGet M q2) p]
          have hfal : falsyGet M p = false := by
            rw [falsyGet, hg]
            simp [hv0]
          rw [hfal]
          obtain ⟨x, hx, hq1, _, _⟩ := hcond
          rw [hL] at hx
          obtain ⟨r0, hr0, hxr⟩ := List.mem_map.mp hx
          have hr0p : r0.path = p := (congrArg Prod.fst hxr).trans hq1
          rw [countPath_nodup p e.store.rows hs,
            if_pos (List.mem_map.mpr ⟨r0, hr0, hr0p⟩)]
          simp
        · have hm2p : mapGet E2.localMtimes p = some v := by
            rw [hm2get p, if_neg hcond]
            exact hg
          rw [if_pos (mapGet_key_mem _ p v hm2p)]
          simp
  have hB : ∀ r ∈ (refresh exts ignoreExt mm (Except.ok files) e).1.store.rows,
      mapGet M r.path = some r.mtime := by
    intro r hr
    rw [hfinal] at hr
    rcases autGo_mem mm E2.localMtimes E2 [] r hr with hpair | ⟨hin, hnm⟩
    · exact mapGet_eq_some_of_mem _ hmnd _ _ (hm2sub.subset hpair)
    · have hnone : mapGet E2.localMtimes r.path = none :=
        (mapGet_eq_none_iff _ _).mpr hnm
      rw [hm2get r.path] at hnone
      by_cases hcond : ∃ x ∈ L, x.1 = r.path ∧ mapGet M r.path = some x.2 ∧ x.2 ≠ 0
      · obtain ⟨x, hx, hq1, hq2, hq3⟩ := hcond
        rw [hL] at hx
        obtain ⟨r0, hr0, hxr⟩ := List.mem_map.mp hx
        have hrin : r ∈ e.store.rows := by
          rw [hrows2] at hin
          exact (List.mem_filter.mp hin).1
        have hr0p : r0.path = r.path := (congrArg Prod.fst hxr).trans hq1
        have hreq : r0 = r := List.inj_on_of_nodup_map hs hr0 hrin hr0p
        have hx2 : x.2 = r.mtime := by
          have h2 := congrArg Prod.snd hxr
          rw [← h2, hreq]
        rw [← hx2]
        exact hq2
      · rw [if_neg hcond] at hnone
        have hin2 : r ∈ e.store.rows.filter (fun r2 => !falsyGet M r2.path) := by
          rw [← hrows2]
          exact hin
        have hff := (List.mem_filter.mp hin2).2
        rw [falsyGet, hnone] at hff
        cases hff
  refine ⟨?_, ?_, ?_⟩
  · intro f hfmem hrel
    have hgate : (ignoreExt && !isAudioFile exts f.path) = false := by
      rcases hrel with h1 | h1
      · rw [h1]
        rfl
      · rw [h1]
        simp
    have hmem : (f.path, Rat.floor f.mtimeMs) ∈ M :=
      (mem_relevantEntries exts ignoreExt files f.path (Rat.floor f.mtimeMs)).mpr
        ⟨f, hfmem, hgate, rfl, rfl⟩
    have hgetf : mapGet M f.path = some (Rat.floor f.mtimeMs) :=
      mapGet_eq_some_of_mem _ hmnd _ _ hmem
    refine ⟨?_, ?_⟩
    · rw [hA f.path, hgetf]
      simp
    · intro r hr hrp
      have h2 := hB r hr
      rw [hrp, hgetf] at h2
      exact (Option.some.inj h2).symm
  · intro f hfmem hig haud
    have hnone : mapGet M f.path = none := by
      rw [mapGet_eq_none_iff]
      intro hmem
      obtain ⟨kv, hkv, hfst⟩ := List.mem_map.mp hmem
      obtain ⟨a, b⟩ := kv
      obtain ⟨f2, hf2, hgate2, hpath2, _⟩ :=
        (mem_relevantEntries exts ignoreExt files a b).mp hkv
      have hfeq : f2 = f := List.inj_on_of_nodup_map hf hf2 hfmem (by
        rw [hpath2]
        exact hfst)
      rw [hfeq, hig, haud] at hgate2
      simp at hgate2
    rw [hA f.path, hnone]
    simp
  · intro r hr
    have hget := hB r hr
    have hmem := mapGet_some_mem _ _ _ hget
    obtain ⟨f, hfmem, hgate, hpath, hfloor⟩ :=
      (mem_relevantEntries exts ignoreExt files r.path r.mtime).mp hmem
    refine ⟨f, hfmem, ?_, hpath.symm, hfloor.symm⟩
    rcases Bool.eq_false_or_eq_true ignoreExt with hig | hig
    · right
      rw [hig] at hgate
      simpa using hgate
    · exact Or.inl hig

/-- C1 witness: the full-refresh completeness theorem applied to a walk of
one audio file and one text file over an empty store. -/
theorem c1_full_refresh_completeness_witness :
    ((c1files.map FileStat.path).Nodup ∧
      (engine0.store.rows.map Row.path).Nodup) ∧
    ((∀ f ∈ c1files, (true = false ∨ isAudioFile ["mp3"] f.path = true) →
       countPath f.path (refresh ["mp3"] true mmNone (Except.ok c1files)
         engine0).1.store.rows = 1 ∧
       ∀ r ∈ (refresh ["mp3"] true mmNone (Except.ok c1files) engine0).1.store.rows,
         r.path = f.path → r.mtime = Rat.floor f.mtimeMs) ∧
    (∀ f ∈ c1files, true = true → isAudioFile ["mp3"] f.path = false →
       countPath f.path (refresh ["mp3"] true mmNone (Except.ok c1files)
         engine0).1.store.rows = 0) ∧
    (∀ r ∈ (refresh ["mp3"] true mmNone (Except.ok c1files) engine0).1.store.rows,
       ∃ f ∈ c1files, (true = false ∨ isAudioFile ["mp3"] f.path = true) ∧
         r.path = f.path ∧ r.mtime = Rat.floor f.mtimeMs)) :=
  ⟨⟨by decide, by decide⟩,
    c1_full_refresh_completeness ["mp3"] true mmNone c1files engine0
      (by decide) (by decide)⟩

end SyncMusicDb
